import Mathlib

/-!
# Verification of the obsidian-proofreader suggestion-markup core

A shallow embedding of the plugin's suggestion-markup codec
(`src/proofread.ts`), its guard logic, and the whitespace handling of the
provider adapters (`src/lmstudio-request.ts`, `src/gemini-request.ts`).

Texts are modelled as `List Char`.  The JavaScript regex operations used by
the source are reimplemented as left-to-right scanners with the exact
semantics of `String.prototype.replace` for the concrete patterns involved
(leftmost, non-overlapping matches; lazy quantifiers; `.` not matching a
newline).  The external word-diff primitive (the npm `diff` package) is not
part of this repository; diffs are taken as arguments constrained by the
documented invariant that the Equal+Insert concatenation is the revised text
and the Equal+Delete concatenation is the original text.
-/

set_option maxRecDepth 20000

namespace Proofreader

/-- The ECMAScript LineTerminator set: LF, CR, LINE SEPARATOR and PARAGRAPH
SEPARATOR.  The regex `.` matches any character except these. -/
def isLineTerm (c : Char) : Bool :=
  c == '\n' || c == '\r' || c == Char.ofNat 0x2028 || c == Char.ofNat 0x2029

/-- The ECMAScript `\s` class (also the class trimmed by
`String.prototype.trim`): WhiteSpace (TAB, VT, FF, SP, NBSP, ZWNBSP and the
Unicode space separators) plus the LineTerminator set. -/
def isJsWs (c : Char) : Bool :=
  c == ' ' || c == '\t' || c == '\n' || c == '\r' ||
  c == Char.ofNat 0xB || c == Char.ofNat 0xC || c == Char.ofNat 0xA0 ||
  c == Char.ofNat 0x1680 ||
  (decide (0x2000 ≤ c.toNat) && decide (c.toNat ≤ 0x200A)) ||
  c == Char.ofNat 0x2028 || c == Char.ofNat 0x2029 ||
  c == Char.ofNat 0x202F || c == Char.ofNat 0x205F ||
  c == Char.ofNat 0x3000 || c == Char.ofNat 0xFEFF

/-- A single change object produced by `diffWords` (the `Change` type of the
npm `diff` package): `added`/`removed` flags plus the run's text. -/
structure DiffPart where
  added : Bool
  removed : Bool
  value : List Char
deriving DecidableEq, Repr

/-- An unchanged (Equal) run. -/
def mkEq (s : String) : DiffPart := ⟨false, false, s.toList⟩

/-- An inserted run. -/
def mkIns (s : String) : DiffPart := ⟨true, false, s.toList⟩

/-- A removed run. -/
def mkDel (s : String) : DiffPart := ⟨false, true, s.toList⟩

/-- One step of the encode `map` in `getDiffMarkdown`:
`if (!part.added && !part.removed) return part.value;
 return part.added ? &#x60;==${part.value}==&#x60; : &#x60;~~${part.value}~~&#x60;;`. -/
def encodePart (p : DiffPart) : List Char :=
  if p.added = false ∧ p.removed = false then p.value
  else if p.added then '=' :: '=' :: (p.value ++ ['=', '='])
  else '~' :: '~' :: (p.value ++ ['~', '~'])

/-- The `.map(...).join("")` of `getDiffMarkdown`: wrap each part and
concatenate. -/
def encodeParts : List DiffPart → List Char
  | [] => []
  | p :: rest => encodePart p ++ encodeParts rest

/-- The revised-side projection of a diff: what survives the `accept`
decode, i.e. the text of every part that is not emitted as a removal. -/
def acceptJoin : List DiffPart → List Char
  | [] => []
  | p :: rest => (if p.added = false ∧ p.removed = true then [] else p.value) ++ acceptJoin rest

/-- The original-side projection of a diff: what survives the `reject`
decode, i.e. the text of every part that is not emitted as an insertion. -/
def rejectJoin : List DiffPart → List Char
  | [] => []
  | p :: rest => (if p.added then [] else p.value) ++ rejectJoin rest

/-- Removes every (leftmost, non-overlapping) occurrence of the two-character
delimiter `cc`; the semantics of `text.replace(/==/g, "")` and
`text.replace(/~~/g, "")`. -/
def removeAllPairs (c : Char) : List Char → List Char
  | [] => []
  | [a] => [a]
  | a :: b :: rest =>
    if a = c ∧ b = c then removeAllPairs c rest
    else a :: removeAllPairs c (b :: rest)

/-- Searches for the lazy closing delimiter of `/cc.*?cc/` after an opener:
the content may be any run of characters other than a line terminator (the
regex `.` matches neither LF, CR, LS nor PS); returns the remainder after
the closer. -/
def spanClose (c : Char) : List Char → Option (List Char)
  | [] => none
  | [_] => none
  | a :: b :: rest =>
    if a = c ∧ b = c then some rest
    else if isLineTerm a then none
    else spanClose c (b :: rest)

theorem spanClose_length {c : Char} : ∀ {s r : List Char},
    spanClose c s = some r → r.length ≤ s.length := by
  intro s
  induction s with
  | nil => intro r h; simp [spanClose] at h
  | cons a t ih =>
    intro r h
    match t with
    | [] => simp [spanClose] at h
    | b :: rest =>
      simp only [spanClose] at h
      split at h
      · cases h; simp; omega
      · split at h
        · cases h
        · have := ih h
          simpa using Nat.le_trans this (by simp)

/-- Fuelled scanner deleting every match of `/cc.*?cc/g` (lazy span with no
newline inside); on a failed match the scanner advances one character, as the
regex engine does. -/
def removeSpansF (c : Char) : Nat → List Char → List Char
  | 0, s => s
  | _ + 1, [] => []
  | fuel + 1, a :: rest =>
    match rest with
    | [] => [a]
    | b :: rest2 =>
      if a = c ∧ b = c then
        match spanClose c rest2 with
        | some rest3 => removeSpansF c fuel rest3
        | none => a :: removeSpansF c fuel rest
      else a :: removeSpansF c fuel rest

/-- `text.replace(/cc.*?cc/g, "")` for the delimiter character `c`. -/
def removeSpans (c : Char) (s : List Char) : List Char :=
  removeSpansF c s.length s

/-- The two decode policies of `removeMarkup`. -/
inductive Mode where
  | accept
  | reject
deriving DecidableEq, Repr

/-- `removeMarkup` from `src/proofread.ts`:
accept = `text.replace(/==/g, "").replace(/~~.*?~~/g, "")`,
reject = `text.replace(/~~/g, "").replace(/==.*?==/g, "")`. -/
def removeMarkup (mode : Mode) (text : List Char) : List Char :=
  match mode with
  | Mode.accept => removeSpans '~' (removeAllPairs '=' text)
  | Mode.reject => removeSpans '=' (removeAllPairs '~' text)

/-! ## The cleanup pass of `getDiffMarkdown`

Five chained `String.replace` calls with `/g` regexes, then the optional
quote-preservation rewrite.  Each is a leftmost, non-overlapping scan; a
failed match attempt advances a single character. -/

/-- The straight apostrophe, written via its code point. -/
def apostrophe : Char := Char.ofNat 39

/-- `.replace(/~~q~~==[q1q2]==/g, q)`: a removed quote immediately followed
by an inserted quote from the two-character class `[q1q2]` collapses to the
plain quote (the source's "preserve non-smart quotes" rules; in the source
bytes both class characters are the ASCII straight quote itself). -/
def fixQuotes (q q1 q2 : Char) : Nat → List Char → List Char
  | 0, s => s
  | _ + 1, [] => []
  | fuel + 1, a :: rest =>
    match a :: rest with
    | '~' :: '~' :: c0 :: '~' :: '~' :: '=' :: '=' :: c1 :: '=' :: '=' :: r =>
      if c0 = q ∧ (c1 = q1 ∨ c1 = q2) then q :: fixQuotes q q1 q2 fuel r
      else a :: fixQuotes q q1 q2 fuel rest
    | _ => a :: fixQuotes q q1 q2 fuel rest

/-- `.replace(/(==|~~) /g, " $1")`: move a space that directly follows a
marker pair to before it ("prevent leading spaces in markup"). -/
def moveLeadingSpace : Nat → List Char → List Char
  | 0, s => s
  | _ + 1, [] => []
  | fuel + 1, a :: rest =>
    match a :: rest with
    | d1 :: d2 :: ' ' :: r =>
      if (d1 = '=' ∧ d2 = '=') ∨ (d1 = '~' ∧ d2 = '~') then
        ' ' :: d1 :: d2 :: moveLeadingSpace fuel r
      else a :: moveLeadingSpace fuel rest
    | _ => a :: moveLeadingSpace fuel rest

/-- Lazy-backtracking helper for `/~~(.+?)(.)~~==(\1)==/`: `A` is the text
captured so far by `(.+?)`, the list argument is the input after `A`.  Each
step first tries to complete the match with `(.)` bound to the next
character; on failure `(.+?)` grows by one (never across a newline).
Returns the replacement `$1~~$2~~` and the input after the match. -/
def mergeTail : List Char → List Char → Option (List Char × List Char)
  | _, [] => none
  | a, ch :: rest =>
    if isLineTerm ch then none
    else if rest.take 4 = ['~', '~', '=', '='] ∧ (rest.drop 4).take a.length = a ∧
        ((rest.drop 4).drop a.length).take 2 = ['=', '='] then
      some (a ++ ['~', '~', ch, '~', '~'], ((rest.drop 4).drop a.length).drop 2)
    else mergeTail (a ++ [ch]) rest

/-- `.replace(/~~(.+?)(.)~~==(\1)==/g, "$1~~$2~~")`: a Delete/Insert pair
differing only by one trailing character is rewritten to the shared text
plus a one-character removal (e.g. a plural `s`). -/
def mergeSuffix : Nat → List Char → List Char
  | 0, s => s
  | _ + 1, [] => []
  | fuel + 1, a :: rest =>
    match a :: rest with
    | '~' :: '~' :: x :: r =>
      if isLineTerm x then a :: mergeSuffix fuel rest
      else
        match mergeTail [x] r with
        | some (repl, r2) => repl ++ mergeSuffix fuel r2
        | none => a :: mergeSuffix fuel rest
    | _ => a :: mergeSuffix fuel rest

/-- Lazy-backtracking helper for `/~~(.+?)~~==(?:\1)(.)==/`: `A` is the text
captured so far by `(.+?)`; the continuation is the literal `~~==`, the
backreference, one character, and `==`. -/
def addTail : List Char → List Char → Option (List Char × List Char)
  | _, [] => none
  | a, ch :: rest =>
    if (ch :: rest).take 4 = ['~', '~', '=', '='] ∧
        ((ch :: rest).drop 4).take a.length = a then
      match ((ch :: rest).drop 4).drop a.length with
      | c :: '=' :: '=' :: r2 =>
        if isLineTerm c then
          if isLineTerm ch then none else addTail (a ++ [ch]) rest
        else some (a ++ ['=', '=', c, '=', '='], r2)
      | _ =>
        if isLineTerm ch then none else addTail (a ++ [ch]) rest
    else if isLineTerm ch then none
    else addTail (a ++ [ch]) rest

/-- `.replace(/~~(.+?)~~==(?:\1)(.)==/g, "$1==$2==")`: a Delete/Insert pair
differing only by one added trailing character is rewritten to the shared
text plus a one-character insertion. -/
def mergeAddition : Nat → List Char → List Char
  | 0, s => s
  | _ + 1, [] => []
  | fuel + 1, a :: rest =>
    match a :: rest with
    | '~' :: '~' :: x :: r =>
      if isLineTerm x then a :: mergeAddition fuel rest
      else
        match addTail [x] r with
        | some (repl, r2) => repl ++ mergeAddition fuel r2
        | none => a :: mergeAddition fuel rest
    | _ => a :: mergeAddition fuel rest

/-- The five chained cleanup replaces of `getDiffMarkdown`, in source
order. -/
def cleanupPipeline (s : List Char) : List Char :=
  let s1 := fixQuotes '"' '"' '"' s.length s
  let s2 := fixQuotes apostrophe apostrophe apostrophe s1.length s1
  let s3 := moveLeadingSpace s2.length s2
  let s4 := mergeSuffix s3.length s3
  mergeAddition s4.length s4

/-- Scans for the closing quote of `/"([^"]+)"/`: returns the inner text
(any characters other than `"`) and the remainder after the closing
quote. -/
def innerUntilQuote : List Char → Option (List Char × List Char)
  | [] => none
  | a :: rest =>
    if a = '"' then some ([], rest)
    else (innerUntilQuote rest).map (fun p => (a :: p.1, p.2))

/-- The quote-preservation rewrite
`.replace(/"([^"]+)"/g, (_, inside) => ...)`: the inner text has all `~~`
pairs removed and all `==...==` spans deleted, restoring the original
quoted text. -/
def preserveQuotesPass : Nat → List Char → List Char
  | 0, s => s
  | _ + 1, [] => []
  | fuel + 1, a :: rest =>
    if a = '"' then
      match innerUntilQuote rest with
      | some (inner, r2) =>
        if inner = [] then a :: preserveQuotesPass fuel rest
        else '"' :: (removeSpans '=' (removeAllPairs '~' inner) ++ '"' :: preserveQuotesPass fuel r2)
      | none => a :: preserveQuotesPass fuel rest
    else a :: preserveQuotesPass fuel rest

/-- `(textWithSuggestions.match(/==|~~/g)?.length || 0)`: the number of
leftmost, non-overlapping marker-pair occurrences. -/
def countMarkers : Nat → List Char → Nat
  | 0, _ => 0
  | _ + 1, [] => 0
  | fuel + 1, a :: rest =>
    match rest with
    | [] => 0
    | b :: r =>
      if (a = '=' ∧ b = '=') ∨ (a = '~' ∧ b = '~') then 1 + countMarkers fuel r
      else countMarkers fuel rest

/-! ## Truncation handling -/

/-- The fixed informational callout spliced in when the revision was cut
short (`cutOffCallout` in the source). -/
def calloutChars : List Char :=
  ("\n\n> [!INFO] End of proofreading\n> The input text was too long. Text after this point is unchanged." ++
    "\n\n").toList

/-- The callout as a diff part (`{ added: false, removed: false, value: cutOffCallout }`). -/
def calloutPart : DiffPart := ⟨false, false, calloutChars⟩

/-- `(diff.at(-1) as Change).removed = false`. -/
def setLastUnremoved : List DiffPart → List DiffPart
  | [] => []
  | [p] => [{ p with removed := false }]
  | p :: rest => p :: setLastUnremoved rest

/-- `array.splice(n, 0, x)` with a clamped start index. -/
def insertAt (n : Nat) (x : DiffPart) (l : List DiffPart) : List DiffPart :=
  l.take n ++ x :: l.drop n

/-- The `if (isOverlength)` block of `getDiffMarkdown`: the last run is
forced to be unchanged and the callout is spliced in at `splice(-2, 0, ...)`,
i.e. before the second-to-last run.  (On an empty diff the source would
throw; that case is modelled as the identity and never reached by callers.) -/
def applyOverlength (diff : List DiffPart) : List DiffPart :=
  if diff = [] then []
  else
    let d := setLastUnremoved diff
    insertAt (d.length - 2) calloutPart d

/-! ## `getDiffMarkdown` -/

/-- The plugin settings fields that the modelled code reads
(`DEFAULT_SETTINGS` in `src/settings.ts` has more fields; they do not
influence the embedded functions). -/
structure ProofreaderSettings where
  llmProvider : String
  preserveTextInsideQuotes : Bool
  lmStudioReasoningEnabled : Bool
deriving DecidableEq, Repr

/-- The defaults relevant here: `llmProvider: "openai"`,
`preserveTextInsideQuotes: false`, `lmStudioReasoningEnabled: false`. -/
def DEFAULT_SETTINGS : ProofreaderSettings := ⟨"openai", false, false⟩

/-- The result record of `getDiffMarkdown`. -/
structure DiffMarkdown where
  textWithSuggestions : List Char
  changeCount : Nat
deriving DecidableEq, Repr

/-- `getDiffMarkdown` from `src/proofread.ts`, with the external
`diffWords(oldText, newText)` result passed in as `diff`.  The source's
`changeCount` is a JS number `matches / 2`; it is modelled with natural
division (all claims evaluate it only at even match counts). -/
def getDiffMarkdown (settings : ProofreaderSettings) (diff : List DiffPart)
    (isOverlength : Bool) : DiffMarkdown :=
  let d := if isOverlength then applyOverlength diff else diff
  let t1 := cleanupPipeline (encodeParts d)
  let t2 := if settings.preserveTextInsideQuotes then preserveQuotesPass t1.length t1 else t1
  ⟨t2, countMarkers t2.length t2 / 2⟩

/-! ## Whitespace helpers (JS `trim`, `\s` runs)

All of them use `isJsWs`, the full ECMAScript `\s` class, which is also
the class removed by `String.prototype.trim`. -/

/-- Leading whitespace run, `oldText.match(/^(\s*)/)?.[0]`. -/
def leadingWs (s : List Char) : List Char := s.takeWhile isJsWs

/-- Trailing whitespace run, `oldText.match(/(\s*)$/)?.[0]`. -/
def trailingWs (s : List Char) : List Char :=
  (s.reverse.takeWhile isJsWs).reverse

/-- JS `String.prototype.trim`. -/
def trimBoth (s : List Char) : List Char :=
  ((s.dropWhile isJsWs).reverse.dropWhile isJsWs).reverse

/-- `.replace(/^(\s*)/, repl)`: the first match of `^(\s*)` is the leading
whitespace run; it is replaced by `repl`. -/
def replaceLeadingWs (repl s : List Char) : List Char :=
  repl ++ s.dropWhile isJsWs

/-- `.replace(/(\s*)$/, repl)`: the first (leftmost) position where `\s*$`
matches is the start of the maximal trailing whitespace run, so that run is
replaced by `repl`. -/
def replaceTrailingWs (repl s : List Char) : List Char :=
  (s.reverse.dropWhile isJsWs).reverse ++ repl

/-- The "Ensure same amount of surrounding whitespace" step shared by the
provider adapters:
`newText.replace(/^(\s*)/, leadingWhitespace).replace(/(\s*)$/, trailingWhitespace)`. -/
def fixSurroundingWs (oldText content : List Char) : List Char :=
  replaceTrailingWs (trailingWs oldText) (replaceLeadingWs (leadingWs oldText) content)

/-! ## Provider adapters (pure response post-processing)

Only the post-request, pure part of `lmStudioRequest` and `geminiRequest`
is modelled: given the old text and the response message content, what
`newText` is returned. -/

/-- Case-insensitive literal match (the `/i` flag); returns the remainder
after the pattern. -/
def matchCi : List Char → List Char → Option (List Char)
  | [], s => some s
  | _, [] => none
  | p :: ps, a :: rest => if a.toLower = p.toLower then matchCi ps rest else none

/-- Finds the first case-insensitive `</think>` and returns the remainder
after it (the lazy `[\s\S]*?<\/think>` continuation). -/
def findCloseThink : List Char → Option (List Char)
  | [] => none
  | a :: rest =>
    match matchCi ("</think>".toList) (a :: rest) with
    | some r => some r
    | none => findCloseThink rest

/-- `.replace(/<think>[\s\S]*?<\/think>\s*/i, "")`: removes the first
reasoning block (and the whitespace after it); without a match the text is
unchanged. -/
def removeThinkOnce : List Char → List Char
  | [] => []
  | a :: rest =>
    match matchCi ("<think>".toList) (a :: rest) with
    | some afterOpen =>
      match findCloseThink afterOpen with
      | some afterClose => afterClose.dropWhile isJsWs
      | none => a :: removeThinkOnce rest
    | none => a :: removeThinkOnce rest

/-- The pure tail of `lmStudioRequest` (`src/lmstudio-request.ts`): the
empty-content guard, the surrounding-whitespace fix, and — when
`lmStudioReasoningEnabled` — the `<think>` strip followed by `.trim()`. -/
def lmStudioNewText (settings : ProofreaderSettings) (oldText content : List Char) :
    Option (List Char) :=
  if content = [] then none
  else
    let t := fixSurroundingWs oldText content
    some (if settings.lmStudioReasoningEnabled then trimBoth (removeThinkOnce t) else t)

/-- The pure tail of `geminiRequest` (`src/gemini-request.ts`): the
surrounding-whitespace fix (any string content passes the `typeof` guard). -/
def geminiNewText (oldText content : List Char) : List Char :=
  fixSurroundingWs oldText content

/-! ## `generateSuggestions` and its callers -/

/-- Does the text contain `==` or `~~` (`oldText.match(/==|~~/)`)? -/
def hasMarker : List Char → Bool
  | [] => false
  | [_] => false
  | a :: b :: rest =>
    if (a = '=' ∧ b = '=') ∨ (a = '~' ∧ b = '~') then true else hasMarker (b :: rest)

/-- A resolved provider response: `{ newText, isOverlength }` (`cost` plays
no role in the modelled control flow). -/
structure ProviderResult where
  newText : List Char
  isOverlength : Bool
deriving DecidableEq, Repr

/-- The environment of one `generateSuggestions` call: the settings, the
awaited provider response (`none` = the request failed or returned
`undefined`), the active-file path before and after the await, and the
external `diffWords` primitive. -/
structure GenEnv where
  settings : ProofreaderSettings
  response : Option ProviderResult
  fileBefore : Option String
  fileAfter : Option String
  diffWords : List Char → List Char → List DiffPart

/-- The payload returned by a successful `generateSuggestions`. -/
structure SuggestionGenerationResult where
  textWithSuggestions : List Char
  oldText : List Char
  changeCount : Nat
  isOverlength : Bool
deriving DecidableEq, Repr

/-- The observable outcome of one `generateSuggestions` call: whether a
provider request was started, whether a notice was shown, and the returned
payload (`none` = the `undefined` early returns of the source). -/
structure GenOutcome where
  requestIssued : Bool
  noticed : Bool
  payload : Option SuggestionGenerationResult
deriving Repr

/-- `generateSuggestions` from `src/proofread.ts`, step for step:
empty-scope guard, unresolved-marker guard, provider dispatch
(`openai` / `lmstudio`, otherwise an unknown-provider notice), the
empty-response guard, the active-file identity check, `getDiffMarkdown`,
and the nothing-to-change check. -/
def generateSuggestions (env : GenEnv) (oldText : List Char) : GenOutcome :=
  if trimBoth oldText = [] then ⟨false, true, none⟩
  else if hasMarker oldText then ⟨false, true, none⟩
  else if env.settings.llmProvider ≠ "openai" ∧ env.settings.llmProvider ≠ "lmstudio" then
    ⟨false, true, none⟩
  else
    match env.response with
    | none => ⟨true, false, none⟩
    | some r =>
      if r.newText = [] then ⟨true, false, none⟩
      else if env.fileBefore ≠ env.fileAfter then ⟨true, true, none⟩
      else
        let md := getDiffMarkdown env.settings (env.diffWords oldText r.newText) r.isOverlength
        if r.newText = oldText ∨ md.textWithSuggestions = oldText ∨ md.changeCount = 0 then
          ⟨true, true, none⟩
        else ⟨true, true, some ⟨md.textWithSuggestions, oldText, md.changeCount, r.isOverlength⟩⟩

/-- The document-level caller `proofreadDocument`: the body after the
frontmatter (`doc.drop bodyStart`) is proofread, and the editor is mutated
(`replaceRange`) only when a payload with a nonempty text came back. -/
def proofreadDocument (env : GenEnv) (doc : List Char) (bodyStart : Nat) : List Char :=
  match (generateSuggestions env (doc.drop bodyStart)).payload with
  | none => doc
  | some p =>
    if p.textWithSuggestions = [] then doc
    else doc.take bodyStart ++ p.textWithSuggestions

/-- The selection-scope caller `proofreadText` (selection case): the scope
`[selFrom, selTo)` is proofread and replaced only on success. -/
def proofreadSelection (env : GenEnv) (doc : List Char) (selFrom selTo : Nat) : List Char :=
  match (generateSuggestions env ((doc.take selTo).drop selFrom)).payload with
  | none => doc
  | some p =>
    if p.textWithSuggestions = [] then doc
    else doc.take selFrom ++ p.textWithSuggestions ++ doc.drop selTo

/-! ## Suggestion navigation -/

/-- The kind of a suggestion region. -/
inductive SuggestionKind where
  | addition
  | removal
deriving DecidableEq, Repr

/-- A scanned suggestion region (spec §3). -/
structure SuggestionRegion where
  kind : SuggestionKind
  startOffset : Nat
  endOffset : Nat
deriving DecidableEq, Repr

/-- Modelled from the spec: the repository's `accept-reject-suggestions.ts`
(the `acceptOrRejectNextSuggestion` implementation) is not among the
provided sources, only its callers; spec §4.5 specifies
`findNext(allRegionsInDocumentOrder, cursorOffset)` as the first region
whose `startOffset` is `≥ cursorOffset`, and `none` when no such region
exists (forward search never wraps around). -/
def findNext (regions : List SuggestionRegion) (cursorOffset : Nat) :
    Option SuggestionRegion :=
  regions.find? (fun r => decide (cursorOffset ≤ r.startOffset))

/-! ## Structural lemmas about the decode path

The two-step decode (`removeAllPairs` then `removeSpans`) is characterised
on encoded diffs whose run texts contain none of the marker characters and
no line terminator. -/

/-- Run texts contain no marker character and no line terminator (word-diff
runs over ordinary prose; text containing `==` or `~~` is rejected upstream
by the `generateSuggestions` guard, and `.` in the markup regexes cannot
cross LF, CR, LS or PS). -/
def PartsClean (l : List DiffPart) : Prop :=
  ∀ p ∈ l, ∀ x ∈ p.value, x ≠ '=' ∧ x ≠ '~' ∧ isLineTerm x = false

instance : ∀ l, Decidable (PartsClean l) := fun l =>
  List.decidableBAll _ l

/-- The encoded diff after all `==` pairs have been removed: insertion
delimiters are gone, removal runs are still wrapped. -/
def encodeDelOnly : List DiffPart → List Char
  | [] => []
  | p :: rest =>
    (if p.added = false ∧ p.removed = true then '~' :: '~' :: (p.value ++ ['~', '~'])
     else p.value) ++ encodeDelOnly rest

/-- The encoded diff after all `~~` pairs have been removed: removal
delimiters are gone, insertion runs are still wrapped. -/
def encodeInsOnly : List DiffPart → List Char
  | [] => []
  | p :: rest =>
    (if p.added then '=' :: '=' :: (p.value ++ ['=', '='])
     else p.value) ++ encodeInsOnly rest

theorem removeAllPairs_cons_ne {c a : Char} (h : a ≠ c) (s : List Char) :
    removeAllPairs c (a :: s) = a :: removeAllPairs c s := by
  cases s with
  | nil => rfl
  | cons b t => simp [removeAllPairs, h]

theorem removeAllPairs_pair {c : Char} (s : List Char) :
    removeAllPairs c (c :: c :: s) = removeAllPairs c s := by
  simp [removeAllPairs]

theorem removeAllPairs_clean_append {c : Char} (seg : List Char)
    (h : ∀ x ∈ seg, x ≠ c) (t : List Char) :
    removeAllPairs c (seg ++ t) = seg ++ removeAllPairs c t := by
  induction seg with
  | nil => simp
  | cons a seg' ih =>
    have ha : a ≠ c := h a (by simp)
    simp only [List.cons_append, removeAllPairs_cons_ne ha]
    rw [ih (fun x hx => h x (by simp [hx]))]

theorem removeSpansF_nil {c : Char} (f : Nat) : removeSpansF c f [] = [] := by
  cases f <;> rfl

theorem removeSpansF_cons_ne {c a : Char} (h : a ≠ c) (f : Nat) (s : List Char) :
    removeSpansF c (f + 1) (a :: s) = a :: removeSpansF c f s := by
  cases s with
  | nil => cases f <;> rfl
  | cons b t => simp [removeSpansF, h]

theorem removeSpansF_clean_append {c : Char} (seg : List Char)
    (h : ∀ x ∈ seg, x ≠ c) (t : List Char) (f : Nat) :
    removeSpansF c (seg.length + f) (seg ++ t) = seg ++ removeSpansF c f t := by
  induction seg with
  | nil => simp
  | cons a seg' ih =>
    have ha : a ≠ c := h a (by simp)
    have hl : (a :: seg').length + f = (seg'.length + f) + 1 := by
      simp [List.length_cons]; omega
    rw [hl, List.cons_append, removeSpansF_cons_ne ha]
    rw [ih (fun x hx => h x (by simp [hx]))]
    simp

theorem spanClose_cons_ne {c a : Char} (h1 : a ≠ c) (h2 : isLineTerm a = false)
    {s : List Char} (hs : s ≠ []) : spanClose c (a :: s) = spanClose c s := by
  cases s with
  | nil => exact absurd rfl hs
  | cons b t => simp [spanClose, h1, h2]

theorem spanClose_clean {c : Char} (v : List Char)
    (h : ∀ x ∈ v, x ≠ c ∧ isLineTerm x = false) (t : List Char) :
    spanClose c (v ++ (c :: c :: t)) = some t := by
  induction v with
  | nil => simp [spanClose]
  | cons a v' ih =>
    have ha := h a (by simp)
    rw [List.cons_append, spanClose_cons_ne ha.1 ha.2 (by simp)]
    exact ih (fun x hx => h x (by simp [hx]))

theorem removeSpansF_del {c : Char} (v : List Char)
    (h : ∀ x ∈ v, x ≠ c ∧ isLineTerm x = false) (t : List Char) (f : Nat) :
    removeSpansF c (f + 1) (c :: c :: (v ++ (c :: c :: t))) = removeSpansF c f t := by
  simp [removeSpansF, spanClose_clean v h t]

/-- Step one of the `accept` decode on an encoded diff: stripping every
`==` pair unwraps exactly the insertion runs. -/
theorem removeAllPairs_encode_eq {l : List DiffPart}
    (h : ∀ p ∈ l, ∀ x ∈ p.value, x ≠ '=') :
    removeAllPairs '=' (encodeParts l) = encodeDelOnly l := by
  induction l with
  | nil => rfl
  | cons p rest ih =>
    have hv : ∀ x ∈ p.value, x ≠ '=' := fun x hx => h p (by simp) x hx
    have hrest := ih (fun q hq x hx => h q (by simp [hq]) x hx)
    simp only [encodeParts, encodePart, encodeDelOnly]
    by_cases hp : p.added = false ∧ p.removed = false
    · rw [if_pos hp, if_neg (by simp [hp.2])]
      rw [removeAllPairs_clean_append p.value hv, hrest]
    · rw [if_neg hp]
      by_cases ha : p.added
      · rw [if_pos ha, if_neg (by simp [ha])]
        have : ('=' :: '=' :: (p.value ++ ['=', '='])) ++ encodeParts rest
            = '=' :: '=' :: (p.value ++ ('=' :: '=' :: encodeParts rest)) := by simp
        rw [this, removeAllPairs_pair,
          removeAllPairs_clean_append p.value hv, removeAllPairs_pair, hrest]
      · have hr : p.removed = true := by
          rcases Bool.eq_false_or_eq_true p.removed with h1 | h1
          · exact h1
          · exact absurd ⟨by simpa using ha, h1⟩ hp
        rw [if_neg ha, if_pos ⟨by simpa using ha, hr⟩]
        have hseg : ∀ x ∈ '~' :: '~' :: (p.value ++ ['~', '~']), x ≠ '=' := by
          intro x hx
          simp only [List.mem_cons, List.mem_append] at hx
          rcases hx with rfl | rfl | hx | hx
          · decide
          · decide
          · exact hv x hx
          · simp only [List.mem_cons, List.not_mem_nil, or_false] at hx
            rcases hx with rfl | rfl <;> decide
        rw [removeAllPairs_clean_append _ hseg, hrest]

/-- Step one of the `reject` decode on an encoded diff: stripping every
`~~` pair unwraps exactly the removal runs. -/
theorem removeAllPairs_encode_tilde {l : List DiffPart}
    (h : ∀ p ∈ l, ∀ x ∈ p.value, x ≠ '~') :
    removeAllPairs '~' (encodeParts l) = encodeInsOnly l := by
  induction l with
  | nil => rfl
  | cons p rest ih =>
    have hv : ∀ x ∈ p.value, x ≠ '~' := fun x hx => h p (by simp) x hx
    have hrest := ih (fun q hq x hx => h q (by simp [hq]) x hx)
    simp only [encodeParts, encodePart, encodeInsOnly]
    by_cases hp : p.added = false ∧ p.removed = false
    · rw [if_pos hp, if_neg (by simp [hp.1])]
      rw [removeAllPairs_clean_append p.value hv, hrest]
    · rw [if_neg hp]
      by_cases ha : p.added
      · rw [if_pos ha, if_pos ha]
        have hseg : ∀ x ∈ '=' :: '=' :: (p.value ++ ['=', '=']), x ≠ '~' := by
          intro x hx
          simp only [List.mem_cons, List.mem_append] at hx
          rcases hx with rfl | rfl | hx | hx
          · decide
          · decide
          · exact hv x hx
          · simp only [List.mem_cons, List.not_mem_nil, or_false] at hx
            rcases hx with rfl | rfl <;> decide
        rw [removeAllPairs_clean_append _ hseg, hrest]
      · rw [if_neg ha, if_neg (by simpa using ha)]
        have : ('~' :: '~' :: (p.value ++ ['~', '~'])) ++ encodeParts rest
            = '~' :: '~' :: (p.value ++ ('~' :: '~' :: encodeParts rest)) := by simp
        rw [this, removeAllPairs_pair,
          removeAllPairs_clean_append p.value hv, removeAllPairs_pair, hrest]

/-- Step two of the `accept` decode: deleting the `~~ ... ~~` spans leaves
the Equal and Insert texts, i.e. the revised side. -/
theorem removeSpansF_encodeDelOnly {l : List DiffPart}
    (h : ∀ p ∈ l, ∀ x ∈ p.value, x ≠ '~' ∧ isLineTerm x = false) (f : Nat) :
    removeSpansF '~' ((encodeDelOnly l).length + f) (encodeDelOnly l) = acceptJoin l := by
  induction l generalizing f with
  | nil => simpa using removeSpansF_nil _
  | cons p rest ih =>
    have hv := fun x hx => h p (by simp) x hx
    have hrest := fun q hq x hx => h q (List.mem_cons_of_mem _ hq) x hx
    simp only [encodeDelOnly, acceptJoin]
    by_cases hp : p.added = false ∧ p.removed = true
    · rw [if_pos hp, if_pos hp]
      have hshape : ('~' :: '~' :: (p.value ++ ['~', '~'])) ++ encodeDelOnly rest
          = '~' :: '~' :: (p.value ++ ('~' :: '~' :: encodeDelOnly rest)) := by simp
      have hlen : (('~' :: '~' :: (p.value ++ ['~', '~'])) ++ encodeDelOnly rest).length + f
          = ((encodeDelOnly rest).length + (p.value.length + 3 + f)) + 1 := by
        simp [List.length_append]; omega
      rw [hlen, hshape, removeSpansF_del p.value hv (encodeDelOnly rest)]
      rw [ih hrest]
      simp
    · rw [if_neg hp, if_neg hp]
      have hlen : (p.value ++ encodeDelOnly rest).length + f
          = p.value.length + ((encodeDelOnly rest).length + f) := by
        simp [List.length_append]; omega
      rw [hlen, removeSpansF_clean_append p.value (fun x hx => (hv x hx).1)]
      rw [ih hrest]

/-- Step two of the `reject` decode: deleting the `== ... ==` spans leaves
the Equal and Delete texts, i.e. the original side. -/
theorem removeSpansF_encodeInsOnly {l : List DiffPart}
    (h : ∀ p ∈ l, ∀ x ∈ p.value, x ≠ '=' ∧ isLineTerm x = false) (f : Nat) :
    removeSpansF '=' ((encodeInsOnly l).length + f) (encodeInsOnly l) = rejectJoin l := by
  induction l generalizing f with
  | nil => simpa using removeSpansF_nil _
  | cons p rest ih =>
    have hv := fun x hx => h p (by simp) x hx
    have hrest := fun q hq x hx => h q (List.mem_cons_of_mem _ hq) x hx
    simp only [encodeInsOnly, rejectJoin]
    by_cases hp : p.added
    · rw [if_pos hp, if_pos hp]
      have hshape : ('=' :: '=' :: (p.value ++ ['=', '='])) ++ encodeInsOnly rest
          = '=' :: '=' :: (p.value ++ ('=' :: '=' :: encodeInsOnly rest)) := by simp
      have hlen : (('=' :: '=' :: (p.value ++ ['=', '='])) ++ encodeInsOnly rest).length + f
          = ((encodeInsOnly rest).length + (p.value.length + 3 + f)) + 1 := by
        simp [List.length_append]; omega
      rw [hlen, hshape, removeSpansF_del p.value hv (encodeInsOnly rest)]
      rw [ih hrest]
      simp
    · rw [if_neg hp, if_neg hp]
      have hlen : (p.value ++ encodeInsOnly rest).length + f
          = p.value.length + ((encodeInsOnly rest).length + f) := by
        simp [List.length_append]; omega
      rw [hlen, removeSpansF_clean_append p.value (fun x hx => (hv x hx).1)]
      rw [ih hrest]

/-- The `accept` decode of an encoded clean diff is its revised side. -/
theorem removeMarkup_accept_encodeParts {l : List DiffPart} (h : PartsClean l) :
    removeMarkup Mode.accept (encodeParts l) = acceptJoin l := by
  have h1 : removeAllPairs '=' (encodeParts l) = encodeDelOnly l :=
    removeAllPairs_encode_eq (fun p hp x hx => (h p hp x hx).1)
  show removeSpans '~' (removeAllPairs '=' (encodeParts l)) = acceptJoin l
  rw [removeSpans, h1]
  have := removeSpansF_encodeDelOnly
    (l := l) (fun p hp x hx => ⟨(h p hp x hx).2.1, (h p hp x hx).2.2⟩) 0
  simpa using this

/-- The `reject` decode of an encoded clean diff is its original side. -/
theorem removeMarkup_reject_encodeParts {l : List DiffPart} (h : PartsClean l) :
    removeMarkup Mode.reject (encodeParts l) = rejectJoin l := by
  have h1 : removeAllPairs '~' (encodeParts l) = encodeInsOnly l :=
    removeAllPairs_encode_tilde (fun p hp x hx => (h p hp x hx).2.1)
  show removeSpans '=' (removeAllPairs '~' (encodeParts l)) = rejectJoin l
  rw [removeSpans, h1]
  have := removeSpansF_encodeInsOnly
    (l := l) (fun p hp x hx => ⟨(h p hp x hx).1, (h p hp x hx).2.2⟩) 0
  simpa using this

/-! ## Lemmas about the whitespace fix of the provider adapters -/

theorem dropWhile_append_of_ne_nil {p : Char → Bool} {xs : List Char}
    (h : xs.dropWhile p ≠ []) (ys : List Char) :
    (xs ++ ys).dropWhile p = xs.dropWhile p ++ ys := by
  induction xs with
  | nil => exact absurd rfl h
  | cons a t ih =>
    by_cases hpa : p a = true
    · rw [List.dropWhile_cons_of_pos hpa] at h
      simp only [List.cons_append, List.dropWhile_cons_of_pos hpa]
      exact ih h
    · have hpa' : p a = false := by simpa using hpa
      simp [List.dropWhile_cons, hpa']

theorem dropWhile_head_false {p : Char → Bool} :
    ∀ {l : List Char} {a : Char} {t : List Char}, l.dropWhile p = a :: t → p a = false := by
  intro l
  induction l with
  | nil => intro a t h; simp [List.dropWhile] at h
  | cons x s ih =>
    intro a t h
    by_cases hx : p x = true
    · rw [List.dropWhile_cons_of_pos hx] at h
      exact ih h
    · have hx' : p x = false := by simpa using hx
      rw [List.dropWhile_cons_of_neg hx] at h
      cases h
      exact hx'

/-- When the response has non-whitespace content, the two whitespace
replaces amount to: the original's leading run, the trimmed content, the
original's trailing run. -/
theorem fixSurroundingWs_decomp (oldText content : List Char)
    (h : trimBoth content ≠ []) :
    fixSurroundingWs oldText content
      = leadingWs oldText ++ (trimBoth content ++ trailingWs oldText) := by
  have hyne : (content.dropWhile isJsWs).reverse.dropWhile isJsWs ≠ [] := by
    intro hy
    exact h (by simp [trimBoth, hy])
  show ((leadingWs oldText ++ content.dropWhile isJsWs).reverse.dropWhile
        isJsWs).reverse ++ trailingWs oldText
      = leadingWs oldText ++ (trimBoth content ++ trailingWs oldText)
  rw [List.reverse_append, dropWhile_append_of_ne_nil hyne]
  rw [List.reverse_append, List.reverse_reverse]
  simp [trimBoth]

theorem leadingWs_decomp (L M T : List Char)
    (hL : ∀ x ∈ L, isJsWs x = true)
    (hM : ∃ m M', M = m :: M' ∧ isJsWs m = false) :
    leadingWs (L ++ (M ++ T)) = L := by
  obtain ⟨m, M', rfl, hm⟩ := hM
  show List.takeWhile _ _ = L
  rw [List.takeWhile_append_of_pos hL]
  simp [List.takeWhile_cons, hm]

theorem trailingWs_decomp (L M T : List Char)
    (hT : ∀ x ∈ T, isJsWs x = true)
    (hM : ∃ m M', M.reverse = m :: M' ∧ isJsWs m = false) :
    trailingWs (L ++ (M ++ T)) = T := by
  obtain ⟨m, M', hMr, hm⟩ := hM
  show (List.takeWhile _ (L ++ (M ++ T)).reverse).reverse = T
  rw [List.reverse_append, List.reverse_append]
  rw [List.append_assoc, List.takeWhile_append_of_pos (by simpa using hT)]
  rw [hMr]
  simp [List.takeWhile_cons, hm]

/-- A nonempty trimmed text starts with a non-whitespace character. -/
theorem trimBoth_head (content : List Char) (h : trimBoth content ≠ []) :
    ∃ m M', trimBoth content = m :: M' ∧ isJsWs m = false := by
  cases htb : trimBoth content with
  | nil => exact absurd htb h
  | cons m M' =>
    refine ⟨m, M', rfl, ?_⟩
    have hsplit := List.takeWhile_append_dropWhile isJsWs
      (content.dropWhile isJsWs).reverse
    have h2 : ((content.dropWhile isJsWs).reverse.dropWhile isJsWs).reverse ++
        ((content.dropWhile isJsWs).reverse.takeWhile isJsWs).reverse
        = content.dropWhile isJsWs := by
      rw [← List.reverse_append, hsplit, List.reverse_reverse]
    have htb' : ((content.dropWhile isJsWs).reverse.dropWhile isJsWs).reverse
        = m :: M' := htb
    rw [htb'] at h2
    have h3 : content.dropWhile isJsWs
        = m :: (M' ++ ((content.dropWhile isJsWs).reverse.takeWhile
            isJsWs).reverse) := by
      nth_rewrite 1 [← h2]
      simp
    exact dropWhile_head_false h3

/-- A nonempty trimmed text ends with a non-whitespace character. -/
theorem trimBoth_last (content : List Char) (h : trimBoth content ≠ []) :
    ∃ m M', (trimBoth content).reverse = m :: M' ∧ isJsWs m = false := by
  set Z := (content.dropWhile isJsWs).reverse with hZ
  have hrev : (trimBoth content).reverse = Z.dropWhile isJsWs := by
    simp [trimBoth, ← hZ]
  have hne : Z.dropWhile isJsWs ≠ [] := by
    intro hy
    exact h (by simp [trimBoth, ← hZ, hy])
  cases hd : Z.dropWhile isJsWs with
  | nil => exact absurd hd hne
  | cons m M' =>
    exact ⟨m, M', by rw [hrev, hd], dropWhile_head_false (l := Z) hd⟩

/-! ## Part-level lemmas for the truncation transform -/

theorem setLastUnremoved_cons_of_ne_nil (a : DiffPart) {l : List DiffPart} (h : l ≠ []) :
    setLastUnremoved (a :: l) = a :: setLastUnremoved l := by
  cases l with
  | nil => exact absurd rfl h
  | cons b t => rfl

theorem setLastUnremoved_append (xs : List DiffPart) (p : DiffPart) :
    setLastUnremoved (xs ++ [p]) = xs ++ [{ p with removed := false }] := by
  induction xs with
  | nil => rfl
  | cons a xs' ih =>
    rw [List.cons_append, setLastUnremoved_cons_of_ne_nil a (by simp), ih]
    rfl

theorem insertAt_middle (xs : List DiffPart) (x a b : DiffPart) :
    insertAt xs.length x (xs ++ [a, b]) = xs ++ [x, a, b] := by
  simp [insertAt, List.take_left, List.drop_left]

theorem encodeParts_append (xs ys : List DiffPart) :
    encodeParts (xs ++ ys) = encodeParts xs ++ encodeParts ys := by
  induction xs with
  | nil => rfl
  | cons p t ih => simp [encodeParts, ih]

/-! ## Claim theorems -/

/-- C1, counterexample.  The round-trip claim fails as stated: for the
valid word diff `[Equal "a", Delete " b"]` of original `"a b"` and revised
`"a"`, the leading-space cleanup turns `a~~ b~~` into `a ~~b~~`, and the
`accept` decode then yields `"a "` instead of the revised text `"a"`. -/
theorem roundTrip_fails_space_repositioning :
    acceptJoin [mkEq "a", mkDel " b"] = "a".toList ∧
    rejectJoin [mkEq "a", mkDel " b"] = "a b".toList ∧
    (getDiffMarkdown DEFAULT_SETTINGS [mkEq "a", mkDel " b"] false).textWithSuggestions
      = "a ~~b~~".toList ∧
    removeMarkup Mode.accept
      (getDiffMarkdown DEFAULT_SETTINGS [mkEq "a", mkDel " b"] false).textWithSuggestions
      ≠ "a".toList := by
  refine ⟨by decide, by decide, by decide, by decide⟩

/-- C1, amended.  For every word diff satisfying the documented invariant
(`acceptJoin` is the revised text, `rejectJoin` the original), whose run
texts contain no marker characters and no line terminator, and on which the
§4.1 cleanup pass rewrites nothing, decoding the produced markup under
`accept` yields exactly the revised text and under `reject` exactly the
original text (default settings, no truncation). -/
theorem roundTrip_when_cleanup_inert (diff : List DiffPart) (original revised : List Char)
    (hclean : PartsClean diff)
    (hrev : acceptJoin diff = revised)
    (horig : rejectJoin diff = original)
    (hinert : cleanupPipeline (encodeParts diff) = encodeParts diff) :
    removeMarkup Mode.accept
      (getDiffMarkdown DEFAULT_SETTINGS diff false).textWithSuggestions = revised ∧
    removeMarkup Mode.reject
      (getDiffMarkdown DEFAULT_SETTINGS diff false).textWithSuggestions = original := by
  have ht : (getDiffMarkdown DEFAULT_SETTINGS diff false).textWithSuggestions
      = encodeParts diff := by
    simp [getDiffMarkdown, DEFAULT_SETTINGS, hinert]
  rw [ht]
  exact ⟨hrev ▸ removeMarkup_accept_encodeParts hclean,
    horig ▸ removeMarkup_reject_encodeParts hclean⟩

/-- Witness for the amended C1 at the diff `[Equal "a", Delete "b",
Insert "c"]` of original `"ab"` and revised `"ac"`. -/
theorem roundTrip_when_cleanup_inert_witness :
    (PartsClean [mkEq "a", mkDel "b", mkIns "c"] ∧
      acceptJoin [mkEq "a", mkDel "b", mkIns "c"] = "ac".toList ∧
      rejectJoin [mkEq "a", mkDel "b", mkIns "c"] = "ab".toList ∧
      cleanupPipeline (encodeParts [mkEq "a", mkDel "b", mkIns "c"])
        = encodeParts [mkEq "a", mkDel "b", mkIns "c"]) ∧
    (removeMarkup Mode.accept
        (getDiffMarkdown DEFAULT_SETTINGS [mkEq "a", mkDel "b", mkIns "c"]
          false).textWithSuggestions = "ac".toList ∧
      removeMarkup Mode.reject
        (getDiffMarkdown DEFAULT_SETTINGS [mkEq "a", mkDel "b", mkIns "c"]
          false).textWithSuggestions = "ab".toList) :=
  ⟨⟨by decide, by decide, by decide, by decide⟩,
    roundTrip_when_cleanup_inert [mkEq "a", mkDel "b", mkIns "c"] "ab".toList "ac".toList
      (by decide) (by decide) (by decide) (by decide)⟩

/-- C2, counterexample.  The leading-space repositioning changes the accept
projection: for the valid diff `[Equal "x", Delete " y"]` of original
`"x y"` and revised `"x"`, the rule `/(==|~~) /g` turns `x~~ y~~` into
`x ~~y~~`, whose `accept` decode is `"x "`, while the un-cleaned
concatenation of the wrapped parts decodes to the revised `"x"`. -/
theorem accept_projection_changed_by_space_rule :
    acceptJoin [mkEq "x", mkDel " y"] = "x".toList ∧
    rejectJoin [mkEq "x", mkDel " y"] = "x y".toList ∧
    removeMarkup Mode.accept (encodeParts [mkEq "x", mkDel " y"]) = "x".toList ∧
    (getDiffMarkdown DEFAULT_SETTINGS [mkEq "x", mkDel " y"] false).textWithSuggestions
      = "x ~~y~~".toList ∧
    removeMarkup Mode.accept
        (getDiffMarkdown DEFAULT_SETTINGS [mkEq "x", mkDel " y"] false).textWithSuggestions
      ≠ removeMarkup Mode.accept (encodeParts [mkEq "x", mkDel " y"]) := by
  refine ⟨by decide, by decide, by decide, by decide, by decide⟩

/-- C2, amended.  The §4.1 cleanup rules can change the accept projection
(the leading-space repositioning does, see the counterexample); whenever
the cleanup pass leaves the encoded concatenation unchanged, the accept
projection of the produced markup equals both the accept projection of the
un-cleaned concatenation and the literal revised text. -/
theorem accept_projection_when_cleanup_inert (diff : List DiffPart) (revised : List Char)
    (hclean : PartsClean diff)
    (hrev : acceptJoin diff = revised)
    (hinert : cleanupPipeline (encodeParts diff) = encodeParts diff) :
    removeMarkup Mode.accept
        (getDiffMarkdown DEFAULT_SETTINGS diff false).textWithSuggestions
      = removeMarkup Mode.accept (encodeParts diff) ∧
    removeMarkup Mode.accept
        (getDiffMarkdown DEFAULT_SETTINGS diff false).textWithSuggestions = revised := by
  have ht : (getDiffMarkdown DEFAULT_SETTINGS diff false).textWithSuggestions
      = encodeParts diff := by
    simp [getDiffMarkdown, DEFAULT_SETTINGS, hinert]
  rw [ht]
  exact ⟨rfl, hrev ▸ removeMarkup_accept_encodeParts hclean⟩

/-- Witness for the amended C2 at the diff `[Equal "x", Insert "y"]`. -/
theorem accept_projection_when_cleanup_inert_witness :
    (PartsClean [mkEq "x", mkIns "y"] ∧
      acceptJoin [mkEq "x", mkIns "y"] = "xy".toList ∧
      cleanupPipeline (encodeParts [mkEq "x", mkIns "y"])
        = encodeParts [mkEq "x", mkIns "y"]) ∧
    (removeMarkup Mode.accept
        (getDiffMarkdown DEFAULT_SETTINGS [mkEq "x", mkIns "y"] false).textWithSuggestions
      = removeMarkup Mode.accept (encodeParts [mkEq "x", mkIns "y"]) ∧
      removeMarkup Mode.accept
        (getDiffMarkdown DEFAULT_SETTINGS [mkEq "x", mkIns "y"] false).textWithSuggestions
      = "xy".toList) :=
  ⟨⟨by decide, by decide, by decide⟩,
    accept_projection_when_cleanup_inert [mkEq "x", mkIns "y"] "xy".toList
      (by decide) (by decide) (by decide)⟩

/-- C3, counterexample.  For the valid truncated diff
`[Equal "a", Delete "b", Equal "c"]` (original `"abc"`, revised `"ac"`),
the callout is spliced in before the second-to-last run, so the removal
`~~b~~` appears after the callout: text after the truncation point is
still wrapped as a removal and the callout is not immediately before the
final unchanged run. -/
theorem truncation_removal_after_callout :
    acceptJoin [mkEq "a", mkDel "b", mkEq "c"] = "ac".toList ∧
    rejectJoin [mkEq "a", mkDel "b", mkEq "c"] = "abc".toList ∧
    applyOverlength [mkEq "a", mkDel "b", mkEq "c"]
      = [mkEq "a", calloutPart, mkDel "b", mkEq "c"] ∧
    ((applyOverlength [mkEq "a", mkDel "b", mkEq "c"]).dropWhile
        (fun p => if p.value = calloutChars then false else true)).drop 1
      = [mkDel "b", mkEq "c"] ∧
    (getDiffMarkdown DEFAULT_SETTINGS [mkEq "a", mkDel "b", mkEq "c"] true).textWithSuggestions
      = "a".toList ++ calloutChars ++ "~~b~~c".toList := by
  refine ⟨by decide, by decide, by decide, by decide, by decide⟩

/-- C3, amended.  When the revision was truncated, the callout part is
spliced in exactly once, immediately before the second-to-last diff run,
and the final run is forced to be unchanged (never emitted as a removal).
When the diff ends with an Equal run followed by a Delete run — the shape
`diffWords` produces when the revised text stops early — the callout is
therefore immediately followed by the final unchanged run `e ++ d` and no
text after the callout is marked. -/
theorem truncation_callout_structure (pre : List DiffPart) (e d : List Char)
    (hpre : ∀ p ∈ pre, p.value ≠ calloutChars)
    (he : e ≠ calloutChars) (hd : d ≠ calloutChars) :
    applyOverlength (pre ++ [⟨false, false, e⟩, ⟨false, true, d⟩])
      = pre ++ [calloutPart, ⟨false, false, e⟩, ⟨false, false, d⟩] ∧
    (applyOverlength (pre ++ [⟨false, false, e⟩, ⟨false, true, d⟩])).countP
        (fun p => if p.value = calloutChars then true else false) = 1 ∧
    encodeParts (applyOverlength (pre ++ [⟨false, false, e⟩, ⟨false, true, d⟩]))
      = encodeParts pre ++ (calloutChars ++ (e ++ d)) := by
  have hmain : applyOverlength (pre ++ [⟨false, false, e⟩, ⟨false, true, d⟩])
      = pre ++ [calloutPart, ⟨false, false, e⟩, ⟨false, false, d⟩] := by
    have hne : pre ++ [(⟨false, false, e⟩ : DiffPart), ⟨false, true, d⟩] ≠ [] := by simp
    have hsplit : pre ++ [(⟨false, false, e⟩ : DiffPart), ⟨false, true, d⟩]
        = (pre ++ [⟨false, false, e⟩]) ++ [⟨false, true, d⟩] := by simp
    have hset : setLastUnremoved (pre ++ [(⟨false, false, e⟩ : DiffPart), ⟨false, true, d⟩])
        = pre ++ [⟨false, false, e⟩, ⟨false, false, d⟩] := by
      rw [hsplit, setLastUnremoved_append]
      simp
    unfold applyOverlength
    rw [if_neg hne]
    show insertAt _ calloutPart (setLastUnremoved _) = _
    rw [hset]
    have hlen : (pre ++ [(⟨false, false, e⟩ : DiffPart), ⟨false, false, d⟩]).length - 2
        = pre.length := by simp
    rw [hlen]
    exact insertAt_middle pre calloutPart ⟨false, false, e⟩ ⟨false, false, d⟩
  refine ⟨hmain, ?_, ?_⟩
  · rw [hmain, List.countP_append]
    have h0 : pre.countP (fun p => if p.value = calloutChars then true else false) = 0 := by
      rw [List.countP_eq_zero]
      intro a ha
      simp [hpre a ha]
    rw [h0]
    simp [List.countP_cons, calloutPart, he, hd]
  · rw [hmain, encodeParts_append]
    simp [encodeParts, encodePart, calloutPart]

/-- Witness for the amended C3 at the diff `[Equal "x ", Delete "tail"]`. -/
theorem truncation_callout_structure_witness :
    ((∀ p ∈ ([] : List DiffPart), p.value ≠ calloutChars) ∧
      "x ".toList ≠ calloutChars ∧ "tail".toList ≠ calloutChars) ∧
    (applyOverlength [⟨false, false, "x ".toList⟩, ⟨false, true, "tail".toList⟩]
      = [calloutPart, ⟨false, false, "x ".toList⟩, ⟨false, false, "tail".toList⟩] ∧
    (applyOverlength [⟨false, false, "x ".toList⟩, ⟨false, true, "tail".toList⟩]).countP
        (fun p => if p.value = calloutChars then true else false) = 1 ∧
    encodeParts (applyOverlength [⟨false, false, "x ".toList⟩, ⟨false, true, "tail".toList⟩])
      = encodeParts ([] : List DiffPart) ++ (calloutChars ++ ("x ".toList ++ "tail".toList))) :=
  ⟨⟨by simp, by decide, by decide⟩,
    truncation_callout_structure [] ("x ".toList) ("tail".toList)
      (by simp) (by decide) (by decide)⟩

/-- C4, confirmed.  For original `cats`, revised `cat` — whose word diff is
`[Delete "cats", Insert "cat"]` — the produced markup is exactly
`cat~~s~~`: a single marked region (changeCount 1) covering only the
trailing `s` as a removal, not a full-word replacement. -/
theorem suffix_merge_cats :
    getDiffMarkdown DEFAULT_SETTINGS [mkDel "cats", mkIns "cat"] false
      = ⟨"cat~~s~~".toList, 1⟩ ∧
    acceptJoin [mkDel "cats", mkIns "cat"] = "cat".toList ∧
    rejectJoin [mkDel "cats", mkIns "cat"] = "cats".toList := by
  refine ⟨by decide, by decide, by decide⟩

/-- C5, code bug.  With the preserve-quotes option enabled, for original
`He said "fix this".` revised to `He said "correct this".` (word diff
`[Equal (He said "), Delete fix, Insert correct, Equal ( this".)]`), the
final annotated output is `He said "fixthis".` — the text inside the
quotes is `fixthis`, not the original `fix this`.  The leading-space
cleanup first turns `==correct== this` into `==correct ==this`, pulling
the unchanged space into the insertion span, and the quote-preservation
rewrite then deletes that span together with the space. -/
theorem quote_preservation_loses_space :
    (getDiffMarkdown ⟨"openai", true, false⟩
        [mkEq "He said \"", mkDel "fix", mkIns "correct", mkEq " this\"."]
        false).textWithSuggestions
      = "He said \"fixthis\".".toList ∧
    (getDiffMarkdown ⟨"openai", true, false⟩
        [mkEq "He said \"", mkDel "fix", mkIns "correct", mkEq " this\"."]
        false).textWithSuggestions
      ≠ "He said \"fix this\".".toList ∧
    acceptJoin [mkEq "He said \"", mkDel "fix", mkIns "correct", mkEq " this\"."]
      = "He said \"correct this\".".toList ∧
    rejectJoin [mkEq "He said \"", mkDel "fix", mkIns "correct", mkEq " this\"."]
      = "He said \"fix this\".".toList := by
  refine ⟨by decide, by decide, by decide, by decide⟩

/-- C6, counterexample.  `removeMarkup` does not delete a removal run whose
content spans a line terminator: `.` in `/~~.*?~~/` matches neither `\n`
nor `\r`, so the accept decode of `~~a\nb~~` (and of `~~a\rb~~`) keeps the
markers and the content instead of deleting them (the claim would require
the empty result). -/
theorem decode_keeps_multiline_removal :
    removeMarkup Mode.accept (encodeParts [mkDel "a\nb"]) = "~~a\nb~~".toList ∧
    removeMarkup Mode.accept (encodeParts [mkDel "a\nb"]) ≠ [] ∧
    removeMarkup Mode.accept (encodeParts [mkDel "a\rb"]) = "~~a\rb~~".toList ∧
    removeMarkup Mode.reject (encodeParts [mkIns "a\nb"]) = "==a\nb==".toList := by
  refine ⟨by decide, by decide, by decide, by decide⟩

/-- C6, amended.  On annotated text assembled from runs whose texts contain
no marker characters and no line terminator, the `accept` decode removes
addition markers keeping their content and deletes removal runs with their
content, and the `reject` decode does the inverse; marked content
containing a line terminator is not matched by the markup regexes and
survives both decodes (see the counterexample). -/
theorem decode_policies_on_clean_markup (parts : List DiffPart) (h : PartsClean parts) :
    removeMarkup Mode.accept (encodeParts parts) = acceptJoin parts ∧
    removeMarkup Mode.reject (encodeParts parts) = rejectJoin parts :=
  ⟨removeMarkup_accept_encodeParts h, removeMarkup_reject_encodeParts h⟩

/-- Witness for the amended C6 at `[Insert "h", Equal "i", Delete "j"]`. -/
theorem decode_policies_on_clean_markup_witness :
    PartsClean [mkIns "h", mkEq "i", mkDel "j"] ∧
    (removeMarkup Mode.accept (encodeParts [mkIns "h", mkEq "i", mkDel "j"])
        = acceptJoin [mkIns "h", mkEq "i", mkDel "j"] ∧
      removeMarkup Mode.reject (encodeParts [mkIns "h", mkEq "i", mkDel "j"])
        = rejectJoin [mkIns "h", mkEq "i", mkDel "j"]) :=
  ⟨by decide, decode_policies_on_clean_markup [mkIns "h", mkEq "i", mkDel "j"] (by decide)⟩

/-- C7, confirmed.  When the scope text is whitespace-only or already
contains `==` or `~~`, `generateSuggestions` aborts before the provider
dispatch: no request is issued, a blocking notice is shown, no payload is
returned, and neither `proofreadDocument` nor the selection path mutates
the document. -/
theorem guard_aborts_before_request (env : GenEnv) (t : List Char)
    (h : trimBoth t = [] ∨ hasMarker t = true) :
    generateSuggestions env t = ⟨false, true, none⟩ ∧
    (∀ doc bodyStart, doc.drop bodyStart = t → proofreadDocument env doc bodyStart = doc) ∧
    (∀ doc selFrom selTo, (doc.take selTo).drop selFrom = t →
      proofreadSelection env doc selFrom selTo = doc) := by
  have hout : generateSuggestions env t = ⟨false, true, none⟩ := by
    by_cases h0 : trimBoth t = []
    · simp [generateSuggestions, h0]
    · rcases h with h | h
      · exact absurd h h0
      · simp [generateSuggestions, h0, h]
  refine ⟨hout, ?_, ?_⟩
  · intro doc bodyStart hdoc
    simp [proofreadDocument, hdoc, hout]
  · intro doc selFrom selTo hdoc
    simp [proofreadSelection, hdoc, hout]

/-- Witness for C7 at a scope that already contains a strikethrough. -/
theorem guard_aborts_before_request_witness :
    (trimBoth "~~old~~ text".toList = [] ∨ hasMarker "~~old~~ text".toList = true) ∧
    (generateSuggestions ⟨DEFAULT_SETTINGS, none, none, none, fun _ _ => []⟩
        "~~old~~ text".toList = ⟨false, true, none⟩ ∧
      (∀ doc bodyStart, doc.drop bodyStart = "~~old~~ text".toList →
        proofreadDocument ⟨DEFAULT_SETTINGS, none, none, none, fun _ _ => []⟩ doc bodyStart
          = doc) ∧
      (∀ doc selFrom selTo, (doc.take selTo).drop selFrom = "~~old~~ text".toList →
        proofreadSelection ⟨DEFAULT_SETTINGS, none, none, none, fun _ _ => []⟩ doc selFrom selTo
          = doc)) :=
  ⟨Or.inr (by decide),
    guard_aborts_before_request ⟨DEFAULT_SETTINGS, none, none, none, fun _ _ => []⟩
      "~~old~~ text".toList (Or.inr (by decide))⟩

/-- C8, confirmed.  If the active-file path changed between the start of
the provider call and its completion, `generateSuggestions` never returns a
payload — every control-flow branch ends in `none` — and the callers leave
the document untouched. -/
theorem stale_file_discards_result (env : GenEnv) (t : List Char)
    (h : env.fileBefore ≠ env.fileAfter) :
    (generateSuggestions env t).payload = none ∧
    (∀ doc bodyStart, proofreadDocument env doc bodyStart = doc) ∧
    (∀ doc selFrom selTo, proofreadSelection env doc selFrom selTo = doc) := by
  have hnone : ∀ s : List Char, (generateSuggestions env s).payload = none := by
    intro s
    unfold generateSuggestions
    repeat' split
    all_goals rfl
  refine ⟨hnone t, ?_, ?_⟩
  · intro doc bodyStart
    have := hnone (doc.drop bodyStart)
    simp [proofreadDocument, this]
  · intro doc selFrom selTo
    have := hnone ((doc.take selTo).drop selFrom)
    simp [proofreadSelection, this]

/-- Witness for C8: the active file changed from `a.md` to `b.md`. -/
theorem stale_file_discards_result_witness :
    ((⟨DEFAULT_SETTINGS, some ⟨"good text".toList, false⟩, some "a.md", some "b.md",
        fun _ _ => []⟩ : GenEnv).fileBefore
      ≠ (⟨DEFAULT_SETTINGS, some ⟨"good text".toList, false⟩, some "a.md", some "b.md",
        fun _ _ => []⟩ : GenEnv).fileAfter) ∧
    ((generateSuggestions ⟨DEFAULT_SETTINGS, some ⟨"good text".toList, false⟩, some "a.md",
        some "b.md", fun _ _ => []⟩ "old".toList).payload = none ∧
      (∀ doc bodyStart, proofreadDocument ⟨DEFAULT_SETTINGS, some ⟨"good text".toList, false⟩,
        some "a.md", some "b.md", fun _ _ => []⟩ doc bodyStart = doc) ∧
      (∀ doc selFrom selTo, proofreadSelection ⟨DEFAULT_SETTINGS, some ⟨"good text".toList, false⟩,
        some "a.md", some "b.md", fun _ _ => []⟩ doc selFrom selTo = doc)) :=
  ⟨by decide,
    stale_file_discards_result ⟨DEFAULT_SETTINGS, some ⟨"good text".toList, false⟩,
      some "a.md", some "b.md", fun _ _ => []⟩ "old".toList (by decide)⟩

theorem findNext_some_spec (cursor : Nat) :
    ∀ regions : List SuggestionRegion,
      regions.Pairwise (fun a b => a.startOffset ≤ b.startOffset) →
      ∀ r, findNext regions cursor = some r →
        r ∈ regions ∧ cursor ≤ r.startOffset ∧
          ∀ q ∈ regions, cursor ≤ q.startOffset → r.startOffset ≤ q.startOffset := by
  intro regions
  induction regions with
  | nil => intro _ r hr; simp [findNext] at hr
  | cons a t ih =>
    intro hs r hr
    rw [List.pairwise_cons] at hs
    by_cases hc : cursor ≤ a.startOffset
    · have hfound : findNext (a :: t) cursor = some a := by
        simp [findNext, List.find?, hc]
      rw [hfound] at hr
      cases hr
      refine ⟨by simp, hc, ?_⟩
      intro q hq _
      rcases List.mem_cons.mp hq with rfl | hq
      · exact le_refl _
      · exact hs.1 q hq
    · have hstep : findNext (a :: t) cursor = findNext t cursor := by
        simp [findNext, List.find?, hc]
      rw [hstep] at hr
      obtain ⟨hmem, hle, hmin⟩ := ih hs.2 r hr
      refine ⟨List.mem_cons_of_mem _ hmem, hle, ?_⟩
      intro q hq hcq
      rcases List.mem_cons.mp hq with rfl | hq
      · exact absurd hcq hc
      · exact hmin q hq hcq

/-- C9, confirmed (spec-modelled: `accept-reject-suggestions.ts` is not
among the provided sources).  For regions in document order, `findNext`
returns the first region whose start offset is at or after the cursor; when
no region starts at or after the cursor — in particular when invoked from
past the last region — it returns `none` rather than wrapping around to the
document start. -/
theorem findNext_no_wraparound (regions : List SuggestionRegion) (cursor : Nat)
    (hsorted : regions.Pairwise (fun a b => a.startOffset ≤ b.startOffset)) :
    (findNext regions cursor = none ↔ ∀ r ∈ regions, r.startOffset < cursor) ∧
    (∀ r, findNext regions cursor = some r →
      r ∈ regions ∧ cursor ≤ r.startOffset ∧
        ∀ q ∈ regions, cursor ≤ q.startOffset → r.startOffset ≤ q.startOffset) := by
  constructor
  · simp [findNext, List.find?_eq_none, Nat.not_le]
  · exact findNext_some_spec cursor regions hsorted

/-- Witness for C9: two regions in order; from a cursor past the last
region's start, `findNext` finds nothing. -/
theorem findNext_no_wraparound_witness :
    ([⟨SuggestionKind.addition, 1, 3⟩, ⟨SuggestionKind.removal, 5, 8⟩]
        : List SuggestionRegion).Pairwise (fun a b => a.startOffset ≤ b.startOffset) ∧
    ((findNext [⟨SuggestionKind.addition, 1, 3⟩, ⟨SuggestionKind.removal, 5, 8⟩] 6 = none ↔
        ∀ r ∈ ([⟨SuggestionKind.addition, 1, 3⟩, ⟨SuggestionKind.removal, 5, 8⟩]
          : List SuggestionRegion), r.startOffset < 6) ∧
      (∀ r, findNext [⟨SuggestionKind.addition, 1, 3⟩, ⟨SuggestionKind.removal, 5, 8⟩] 6
          = some r →
        r ∈ ([⟨SuggestionKind.addition, 1, 3⟩, ⟨SuggestionKind.removal, 5, 8⟩]
          : List SuggestionRegion) ∧ 6 ≤ r.startOffset ∧
          ∀ q ∈ ([⟨SuggestionKind.addition, 1, 3⟩, ⟨SuggestionKind.removal, 5, 8⟩]
            : List SuggestionRegion), 6 ≤ q.startOffset → r.startOffset ≤ q.startOffset)) :=
  ⟨by simp [List.pairwise_cons],
    findNext_no_wraparound [⟨SuggestionKind.addition, 1, 3⟩, ⟨SuggestionKind.removal, 5, 8⟩] 6
      (by simp [List.pairwise_cons])⟩

/-- C10, counterexample.  With LM Studio reasoning mode enabled the adapter
ends with `.trim()`, so a response for an old text with surrounding
whitespace comes back with that whitespace stripped: for
`oldText = " hi "` and content `"hello"` the returned text is `"hello"`,
whose leading whitespace differs from the old text's. -/
theorem lmstudio_reasoning_trim_loses_ws :
    lmStudioNewText ⟨"lmstudio", false, true⟩ " hi ".toList "hello".toList
      = some ("hello".toList) ∧
    leadingWs ("hello".toList) ≠ leadingWs (" hi ".toList) ∧
    trailingWs ("hello".toList) ≠ trailingWs (" hi ".toList) := by
  refine ⟨by decide, by decide, by decide⟩

/-- C10, amended.  Whenever the response content has a non-whitespace
character, the Gemini adapter returns it with exactly the old text's
leading and trailing whitespace, and the LM Studio adapter does the same
provided reasoning-stripping is disabled; with reasoning mode enabled LM
Studio trims all surrounding whitespace (see the counterexample). -/
theorem providers_preserve_surrounding_ws (oldText content : List Char)
    (h : trimBoth content ≠ []) :
    leadingWs (geminiNewText oldText content) = leadingWs oldText ∧
    trailingWs (geminiNewText oldText content) = trailingWs oldText ∧
    (∀ s : ProofreaderSettings, s.lmStudioReasoningEnabled = false →
      lmStudioNewText s oldText content = some (geminiNewText oldText content)) := by
  have hfix := fixSurroundingWs_decomp oldText content h
  have hLws : ∀ x ∈ leadingWs oldText, isJsWs x = true :=
    fun x hx => List.mem_takeWhile_imp hx
  have hTws : ∀ x ∈ trailingWs oldText, isJsWs x = true := by
    intro x hx
    exact List.mem_takeWhile_imp (List.mem_reverse.mp hx)
  refine ⟨?_, ?_, ?_⟩
  · show leadingWs (fixSurroundingWs oldText content) = leadingWs oldText
    rw [hfix]
    exact leadingWs_decomp _ _ _ hLws (trimBoth_head content h)
  · show trailingWs (fixSurroundingWs oldText content) = trailingWs oldText
    rw [hfix]
    exact trailingWs_decomp _ _ _ hTws (trimBoth_last content h)
  · intro s hs
    have hc : content ≠ [] := by
      intro hc
      exact h (by rw [hc]; rfl)
    simp [lmStudioNewText, geminiNewText, hc, hs]

/-- Witness for the amended C10 at `oldText = " a "`, content `"b"`. -/
theorem providers_preserve_surrounding_ws_witness :
    trimBoth "b".toList ≠ [] ∧
    (leadingWs (geminiNewText " a ".toList "b".toList) = leadingWs " a ".toList ∧
      trailingWs (geminiNewText " a ".toList "b".toList) = trailingWs " a ".toList ∧
      (∀ s : ProofreaderSettings, s.lmStudioReasoningEnabled = false →
        lmStudioNewText s " a ".toList "b".toList
          = some (geminiNewText " a ".toList "b".toList))) :=
  ⟨by decide, providers_preserve_surrounding_ws " a ".toList "b".toList (by decide)⟩

end Proofreader
